import Mathlib

/-!
Verification of the aspect–opinion span-decoding algorithm of the
sentiment-analysis demo (`applications/sentiment_analysis/demo.py`,
function `decoding`).

Embedding choices:
* The input `text` (a Python `str`) is a `List Char`; the input `tag_seq`
  (a Python list of label strings) is a `List String`.
* A Python slice `xs[a:b]` with non-negative bounds is `pySlice xs a b =
  (xs.take b).drop a`: both clamp out-of-range bounds and return `[]`
  when `a ≥ b`, exactly like Python.
* The Python `assert len(text) == len(tag_seq)` with its f-string message
  exposing both lengths is modelled by returning
  `Except.error (text.length, tag_seq.length)`.
* Output groups hold surface strings; a surface string is a `List Char`
  (a slice of a segment's text), and the sentinel `"None"` is its
  character list.
* The mutations of the Python lists `aps`, `no_a_words`, `sub_aps`,
  `sub_no_a_words` are threaded as explicit state through folds, in the
  exact order the Python statements execute.
-/

/-- Python slice `xs[a:b]` for non-negative `a`, `b`. -/
def pySlice (xs : List α) (a b : Nat) : List α := (xs.take b).drop a

/-- The punctuation set `list(",.?;!，。？；！")` from `decoding`. -/
def puncs : List Char := String.toList ",.?;!，。？；！"

/-- The split indices `[idx for idx in range(len(text)) if text[idx] in puncs]`.
The index always lies in range, so the `getD` default (a non-punctuation
character) is never consulted. -/
def splitsOf (text : List Char) : List Nat :=
  (List.range text.length).filter (fun idx => text.getD idx 'a' ∈ puncs)

/-- The segmentation loop of `decoding`: starting from `prev`, for each
split index `s` emit `xs[prev:s]` and set `prev = s` (not `s + 1`);
afterwards emit the final slice `xs[prev:]`. -/
def subSlices (xs : List α) : List Nat → Nat → List (List α)
  | [], prev => [xs.drop prev]
  | s :: rest, prev => pySlice xs prev s :: subSlices xs rest s

/-- An entity returned by the span extractor:
`(label, start_offset, end_offset_inclusive)`. -/
abbrev Ent := String × Nat × Nat

/-- Modelled from the spec: classification of one tag of the
begin/inside/outside scheme consumed by the external span extractor
`get_entities` (seqeval, not part of this repository). A tag of the form
`B-L` or `I-L` belongs to label class `L`; any other tag (such as `O`)
is an outside tag. -/
def tagLabel (t : String) : Option String :=
  match t.toList with
  | 'B' :: '-' :: rest => some (String.mk rest)
  | 'I' :: '-' :: rest => some (String.mk rest)
  | _ => none

/-- Modelled from the spec: the scan underlying `get_entities`. It walks
the tag list with the current position `i` and the currently open run
`cur = some (label, start, last)`; outside tags close the open run, and a
maximal contiguous run of begin/inside tags of one label class becomes
one entity spanning from its first position to its last. -/
def chunksAux : List String → Nat → Option Ent → List Ent
  | [], _, none => []
  | [], _, some c => [c]
  | t :: rest, i, none =>
    match tagLabel t with
    | none => chunksAux rest (i + 1) none
    | some l => chunksAux rest (i + 1) (some (l, i, i))
  | t :: rest, i, some (lab, s, e) =>
    match tagLabel t with
    | none => (lab, s, e) :: chunksAux rest (i + 1) none
    | some l =>
      if l = lab then chunksAux rest (i + 1) (some (lab, s, i))
      else (lab, s, e) :: chunksAux rest (i + 1) (some (l, i, i))

/-- Modelled from the spec: the external span extractor
`get_entities(tag_seq_segment)` (seqeval, suffix=False; its source is not
part of this repository): it ignores outside-labeled positions and turns
each maximal contiguous run of begin/inside tags of one label class into
one entity `(label, start, end_inclusive)`, in left-to-right order. -/
def get_entities (tags : List String) : List Ent := chunksAux tags 0 none

/-- One AspectGroup: first element the aspect surface string, the rest
opinion surface strings. -/
abbrev AspectGroup := List (List Char)

/-- The operation `aps[-1].extend(xs)`: extend the last group of a non-empty group
list. (Every call site in `decoding` guards non-emptiness; on `[]` we
return `[]`, which is never reached.) -/
def extendLast : List AspectGroup → List (List Char) → List AspectGroup
  | [], _ => []
  | [g], xs => [g ++ xs]
  | g :: h :: t, xs => g :: extendLast (h :: t) xs

/-- The body of the inner entity loop of `decoding`, acting on the state
`(sub_aps, sub_no_a_words)`. In the Python source the loop variable
holding the first component of each `ents_list` pair is named
`sub_tag_seq`, but the pair was built as `(sub_text, ents)`, so the value
sliced here is the segment's TEXT; `sub_text` below is that value.
* `Aspect`: append a new group `[aspect]`, then move `sub_no_a_words`
  into it and clear the buffer.
* any other label (the statement `ent_name == "Opinion"` is a discarded
  expression, not a guard): append the opinion to the last group of
  `sub_aps` when one exists, else buffer it in `sub_no_a_words`. -/
def processEnt (sub_text : List Char) (st : List AspectGroup × List (List Char))
    (ent : Ent) : List AspectGroup × List (List Char) :=
  let sub_aps := st.1
  let sub_no := st.2
  let name := ent.1
  let start := ent.2.1
  let stop := ent.2.2
  if name = "Aspect" then
    let aspect := pySlice sub_text start (stop + 1)
    (sub_aps ++ [aspect :: sub_no], [])
  else
    let opinion := pySlice sub_text start (stop + 1)
    if sub_aps.isEmpty then (sub_aps, sub_no ++ [opinion])
    else (extendLast sub_aps [opinion], sub_no)

/-- The per-segment step of `decoding`, acting on the global state
`(aps, no_a_words)`:
* if the segment produced groups, append them all to `aps` and attach any
  buffered global orphans to the LAST group just appended (`aps[-1]`),
  clearing the buffer;
* else if the segment produced only orphan opinions, attach them to the
  last global group when one exists, else carry them in `no_a_words`. -/
def processSeg (st : List AspectGroup × List (List Char))
    (seg : List Char × List Ent) : List AspectGroup × List (List Char) :=
  let aps := st.1
  let no_a := st.2
  let sub := seg.2.foldl (processEnt seg.1) ([], [])
  if ¬ sub.1.isEmpty then
    let aps2 := aps ++ sub.1
    if ¬ no_a.isEmpty then (extendLast aps2 no_a, []) else (aps2, no_a)
  else if ¬ sub.2.isEmpty then
    if ¬ aps.isEmpty then (extendLast aps sub.2, no_a)
    else (aps, no_a ++ sub.2)
  else (aps, no_a)

/-- The list `ents_list` of `(sub_text, get_entities(sub_tag_seq))`
pairs built by `decoding` after segmentation. -/
def entsList (text : List Char) (tag_seq : List String) :
    List (List Char × List Ent) :=
  ((subSlices text (splitsOf text) 0).zip
      (subSlices tag_seq (splitsOf text) 0)).map
    (fun p => (p.1, get_entities p.2))

/-- The character list of the sentinel string `"None"`. -/
def noneWord : List Char := String.toList "None"

/-- The aggregation phase of `decoding`: fold the per-segment step over
all segments starting from empty `aps` / `no_a_words`; afterwards, if
orphans remain, prepend the sentinel `"None"` and append them as a final
group. -/
def aggregate (segs : List (List Char × List Ent)) : List AspectGroup :=
  let st := segs.foldl processSeg ([], [])
  if ¬ st.2.isEmpty then st.1 ++ [noneWord :: st.2] else st.1

/-- The function `decoding(text, tag_seq)`: assert the length precondition (modelled
as `Except.error` carrying both lengths, as the assertion message
exposes), then segment on punctuation, extract entities per segment, and
aggregate. -/
def decoding (text : List Char) (tag_seq : List String) :
    Except (Nat × Nat) (List AspectGroup) :=
  if text.length = tag_seq.length then
    .ok (aggregate (entsList text tag_seq))
  else
    .error (text.length, tag_seq.length)

/-- All opinion surface strings of a segment list, in order of
appearance: for each segment in order, each entity's slice of the
segment text. -/
def opinionSurfaces (segs : List (List Char × List Ent)) :
    List (List Char) :=
  segs.flatMap (fun seg =>
    seg.2.map (fun e => pySlice seg.1 e.2.1 (e.2.2 + 1)))

/-- The operation `aps[-1].extend(xs)` rewrites the last group and nothing else. -/
theorem extendLast_append_singleton (gs : List AspectGroup) (g : AspectGroup)
    (xs : List (List Char)) :
    extendLast (gs ++ [g]) xs = gs ++ [g ++ xs] := by
  induction gs with
  | nil => rfl
  | cons a gs ih =>
    cases gs with
    | nil => rfl
    | cons b t => simpa [extendLast] using ih

/-- Claim C7: `decoding` fails if and only if `len(text) != len(tag_seq)`;
the error is the sole error kind at the boundary and carries both
lengths (the assertion message exposes them); when the lengths agree the
decode proceeds, so the check is a precondition ahead of segmentation. -/
theorem decoding_length_mismatch (text : List Char) (tag_seq : List String) :
    ((∃ e, decoding text tag_seq = Except.error e) ↔
        text.length ≠ tag_seq.length) ∧
    (text.length ≠ tag_seq.length →
      decoding text tag_seq = Except.error (text.length, tag_seq.length)) ∧
    (∀ e, decoding text tag_seq = Except.error e →
      e = (text.length, tag_seq.length)) := by
  by_cases h : text.length = tag_seq.length <;> simp [decoding, h]

/-- Claim C7 witness: at `text = "a"`, `tag_seq = ["O", "O"]` the decode
fails with the error carrying both lengths 1 and 2. -/
theorem decoding_length_mismatch_witness :
    decoding ['a'] ["O", "O"] = Except.error (1, 2) :=
  (decoding_length_mismatch ['a'] ["O", "O"]).2.1 (by decide)

/-- Claim C8: `decoding` is a deterministic pure function of
`(text, tag_seq)`: the embedding threads every accumulator explicitly,
so two calls on identical inputs yield identical outputs and no state
survives a call. -/
theorem decoding_deterministic (text : List Char) (tag_seq : List String) :
    decoding text tag_seq = decoding text tag_seq := rfl

/-- Claim C9: an entity whose label is not exactly `"Aspect"` is
processed along the Opinion branch (the Python statement
`ent_name == "Opinion"` is a discarded expression, never a guard), so an
entity with any third label class is handled exactly like an Opinion
entity — appended as an opinion word, not rejected or ignored. -/
theorem processEnt_nonaspect_is_opinion (sub_text : List Char)
    (st : List AspectGroup × List (List Char)) (name : String) (s e : Nat)
    (h : name ≠ "Aspect") :
    processEnt sub_text st (name, s, e) =
      processEnt sub_text st ("Opinion", s, e) := by
  simp [processEnt, h]

/-- Claim C9 witness: the third label class `"Foo"` is processed exactly
like `"Opinion"`. -/
theorem processEnt_nonaspect_is_opinion_witness :
    processEnt ['a'] ([], []) ("Foo", 0, 0) =
      processEnt ['a'] ([], []) ("Opinion", 0, 0) :=
  processEnt_nonaspect_is_opinion ['a'] ([], []) "Foo" 0 0 (by decide)

/-- Claim C10: `decoding` performs no deduplication: on
`text = "abcb"` with Opinion entities at offsets 1 and 3 (both with
surface `"b"`) attaching to the aspect `"a"`, the returned group holds
the string `"b"` twice. -/
theorem decoding_no_dedup :
    decoding (String.toList "abcb") ["B-Aspect", "B-Opinion", "O", "B-Opinion"]
      = Except.ok [[['a'], ['b'], ['b']]] ∧
    List.count ['b'] [['a'], ['b'], ['b']] = 2 := ⟨rfl, by decide⟩

/-- Claim C1 counterexample: `text = "o,axb"` puts an orphan Opinion in
segment 1 (no aspect there) and TWO Aspect entities in segment 2; the
orphan `"o"` attaches to the LAST emitted group `["b"]` of segment 2,
not to the first group `["a"]` as the claim states. -/
theorem decoding_orphan_counterexample :
    decoding (String.toList "o,axb")
        ["B-Opinion", "O", "B-Aspect", "O", "B-Aspect"]
      = Except.ok [[['a']], [['b'], ['o']]] ∧
    ([[['a']], [['b'], ['o']]] : List AspectGroup)
      ≠ [[['a'], ['o']], [['b']]] :=
  ⟨rfl, by decide⟩

/-- Claim C1 (amended): when the global orphan buffer `no_a_words` is
non-empty and a segment emits at least one AspectGroup, the buffered
orphan opinions are attached to the LAST group emitted by that segment
(all earlier groups are unchanged) and the buffer is cleared — they are
not lost and not attached elsewhere. -/
theorem processSeg_attaches_orphans_to_last
    (aps : List AspectGroup) (no_a : List (List Char))
    (seg : List Char × List Ent)
    (h1 : no_a ≠ [])
    (h2 : (seg.2.foldl (processEnt seg.1) ([], [])).1 ≠ []) :
    ∃ gs g, (seg.2.foldl (processEnt seg.1) ([], [])).1 = gs ++ [g] ∧
      processSeg (aps, no_a) seg = (aps ++ gs ++ [g ++ no_a], []) := by
  rcases (List.eq_nil_or_concat ((seg.2.foldl (processEnt seg.1) ([], [])).1))
    with hnil | ⟨gs, g, hgg⟩
  · exact absurd hnil h2
  · rw [List.concat_eq_append] at hgg
    refine ⟨gs, g, hgg, ?_⟩
    simp only [processSeg, hgg, List.isEmpty_iff, h1]
    rw [if_pos (by simp [List.isEmpty_iff]), if_pos (by simp [List.isEmpty_iff, h1])]
    rw [← List.append_assoc, extendLast_append_singleton, List.append_assoc]

/-- Claim C1 witness: buffered orphan `["o"]` meeting a segment that
emits the two groups `[["a"], ["b"]]` lands on the last group. -/
theorem processSeg_attaches_orphans_to_last_witness :
    ∃ gs g,
      (([("Aspect", 1, 1), ("Aspect", 3, 3)] : List Ent).foldl
          (processEnt (String.toList ",axb")) ([], [])).1 = gs ++ [g] ∧
      processSeg ([], [['o']])
          (String.toList ",axb", [("Aspect", 1, 1), ("Aspect", 3, 3)])
        = ([] ++ gs ++ [g ++ [['o']]], []) :=
  processSeg_attaches_orphans_to_last [] [['o']]
    (String.toList ",axb", [("Aspect", 1, 1), ("Aspect", 3, 3)])
    (by decide) (by decide)

/-- Claim C2 counterexample: on `text = "ab"`,
`tag_seq = ["B-Aspect", "I-Aspect"]`, the emitted group's first element
is the slice `"ab"` of the segment TEXT; it is not the slice
`["B-Aspect", "I-Aspect"]` of the tag sequence (rendered here as its
concatenated characters). The Python loop variable named `sub_tag_seq`
in the aggregation loop is bound to `sub_text`. -/
theorem decoding_aspect_surface_counterexample :
    decoding (String.toList "ab") ["B-Aspect", "I-Aspect"]
      = Except.ok [[['a', 'b']]] ∧
    (['a', 'b'] : List Char)
      ≠ (pySlice ["B-Aspect", "I-Aspect"] 0 (1 + 1)).flatMap String.toList :=
  ⟨rfl, by decide⟩

/-- Claim C2 (amended): the surface string placed as the first element
of a new AspectGroup is the slice of the segment's character TEXT at
`[start, end]` inclusive — the aggregation loop's variable is named
`sub_tag_seq` but holds the segment text. Stated for the entity step
with the segment text it receives from `ents_list`. -/
theorem processEnt_aspect_slices_text (sub_text : List Char)
    (st : List AspectGroup × List (List Char)) (s e : Nat) :
    processEnt sub_text st ("Aspect", s, e)
      = (st.1 ++ [pySlice sub_text s (e + 1) :: st.2], []) := by
  simp [processEnt]

/-- Splitting `xs.drop p` at `s ≥ p`: the slice `xs[p:s]` followed by
`xs[s:]` recovers `xs[p:]`. -/
theorem pySlice_append_drop (xs : List α) (p s : Nat) (h : p ≤ s) :
    pySlice xs p s ++ xs.drop s = xs.drop p := by
  by_cases hp : p ≤ xs.length
  · conv_rhs => rw [← List.take_append_drop s xs]
    rw [List.drop_append_eq_append_drop]
    have h0 : p - (xs.take s).length = 0 := by
      simp only [List.length_take]
      omega
    rw [pySlice, h0, List.drop_zero]
  · have h1 : pySlice xs p s = [] := by
      apply List.drop_eq_nil_of_le
      simp only [List.length_take]
      omega
    have h2 : xs.drop s = [] := List.drop_eq_nil_of_le (by omega)
    have h3 : xs.drop p = [] := List.drop_eq_nil_of_le (by omega)
    simp [h1, h2, h3]

/-- For split indices that are sorted above `prev`, the emitted slices
concatenate back to `xs.drop prev`. -/
theorem flatten_subSlices (xs : List α) :
    ∀ (splits : List Nat) (prev : Nat),
      List.Pairwise (· ≤ ·) (prev :: splits) →
      (subSlices xs splits prev).flatten = xs.drop prev := by
  intro splits
  induction splits with
  | nil => intro prev _; simp [subSlices]
  | cons s rest ih =>
    intro prev hp
    rcases List.pairwise_cons.mp hp with ⟨hle, htail⟩
    have hps : prev ≤ s := hle s (by simp)
    simp only [subSlices, List.flatten_cons]
    rw [ih s htail]
    exact pySlice_append_drop xs prev s hps

/-- The split indices collected by `splitsOf`, prefixed with the start
offset 0, are sorted. -/
theorem pairwise_zero_splitsOf (text : List Char) :
    List.Pairwise (· ≤ ·) (0 :: splitsOf text) := by
  apply List.Pairwise.cons
  · intro x _
    exact Nat.zero_le x
  · exact ((List.pairwise_lt_range _).filter _).imp Nat.le_of_lt

/-- The split indices are strictly increasing. -/
theorem pairwise_lt_splitsOf (text : List Char) :
    List.Pairwise (· < ·) (splitsOf text) :=
  (List.pairwise_lt_range _).filter _

/-- Membership in `splitsOf`: a split index is in range and carries a
punctuation character. -/
theorem mem_splitsOf (text : List Char) (m : Nat) (h : m ∈ splitsOf text) :
    m < text.length ∧ text.getD m 'a' ∈ puncs := by
  simp only [splitsOf, List.mem_filter, List.mem_range] at h
  exact ⟨h.1, by simpa using h.2⟩

/-- Claim C3: with the length precondition, concatenating the emitted
text slices in order gives back `text`, concatenating the emitted tag
slices gives back `tag_seq`, and the segment text lengths sum to
`len(text)`. -/
theorem decoding_concat_invariant (text : List Char) (tag_seq : List String)
    (hlen : text.length = tag_seq.length) :
    (subSlices text (splitsOf text) 0).flatten = text ∧
    (subSlices tag_seq (splitsOf text) 0).flatten = tag_seq ∧
    ((subSlices text (splitsOf text) 0).map List.length).sum = text.length := by
  have h1 := flatten_subSlices text (splitsOf text) 0 (pairwise_zero_splitsOf text)
  have h2 := flatten_subSlices tag_seq (splitsOf text) 0 (pairwise_zero_splitsOf text)
  rw [List.drop_zero] at h1 h2
  refine ⟨h1, h2, ?_⟩
  rw [← List.length_flatten, h1]

/-- Claim C3 witness: the segments of `"a,"` concatenate back to it. -/
theorem decoding_concat_invariant_witness :
    (subSlices ['a', ','] (splitsOf ['a', ',']) 0).flatten = ['a', ','] :=
  (decoding_concat_invariant ['a', ','] ["O", "O"] rfl).1

/-- The segmentation emits one slice per split index plus the final
slice. -/
theorem subSlices_length (xs : List α) :
    ∀ (splits : List Nat) (prev : Nat),
      (subSlices xs splits prev).length = splits.length + 1 := by
  intro splits
  induction splits with
  | nil => intro prev; rfl
  | cons s rest ih => intro prev; simp [subSlices, ih]

/-- For strictly increasing split indices, the slice emitted after the
`i`-th split index starts exactly at that index of `xs`. -/
theorem subSlices_head_at_split (xs : List α) :
    ∀ (splits : List Nat) (prev : Nat), List.Pairwise (· < ·) splits →
      ∀ i, i < splits.length →
        ((subSlices xs splits prev).getD (i + 1) []).head?
          = xs[splits.getD i 0]? := by
  intro splits
  induction splits with
  | nil =>
    intro prev _ i hi
    simp at hi
  | cons s rest ih =>
    intro prev hp i hi
    cases i with
    | zero =>
      cases rest with
      | nil => simp [subSlices]
      | cons r t =>
        have hsr : s < r := (List.pairwise_cons.mp hp).1 r (by simp)
        simp [subSlices, pySlice, List.getElem?_take_of_lt hsr]
    | succ j =>
      have hrec := ih s (List.pairwise_cons.mp hp).2 j (by simpa using hi)
      simpa [subSlices] using hrec

/-- Claim C4: the segmenter splits exactly at the punctuation indices,
emitting `[prev, split)` and then restarting at `split` (not
`split + 1`): the segment count is the number of punctuation indices
plus one, the segment following the `i`-th split index begins with the
character at that index (a member of the punctuation set), and adjacent
or initial punctuation yields empty segments, as on the text `",,"`
whose segments are `["", ",", ","]`. -/
theorem decoding_split_semantics (text : List Char) :
    (subSlices text (splitsOf text) 0).length = (splitsOf text).length + 1 ∧
    (∀ i, i < (splitsOf text).length →
      ((subSlices text (splitsOf text) 0).getD (i + 1) []).head?
          = text[(splitsOf text).getD i 0]? ∧
      text.getD ((splitsOf text).getD i 0) 'a' ∈ puncs) ∧
    subSlices [',', ','] (splitsOf [',', ',']) 0 = [[], [','], [',']] := by
  refine ⟨subSlices_length text (splitsOf text) 0, fun i hi => ⟨?_, ?_⟩, by decide⟩
  · exact subSlices_head_at_split text (splitsOf text) 0
      (pairwise_lt_splitsOf text) i hi
  · have hmem : (splitsOf text).getD i 0 ∈ splitsOf text := by
      have hg : (splitsOf text).getD i 0 = (splitsOf text)[i] := by
        rw [List.getD_eq_getElem?_getD, List.getElem?_eq_getElem hi]
        rfl
      rw [hg]
      exact List.getElem_mem hi
    exact (mem_splitsOf text _ hmem).2

/-- Claim C4 witness: on `",a"` the segment after split index 0 begins
with the character at index 0 of the text. -/
theorem decoding_split_semantics_witness :
    ((subSlices [',', 'a'] (splitsOf [',', 'a']) 0).getD 1 []).head?
      = ([',', 'a'])[(splitsOf [',', 'a']).getD 0 0]? :=
  (((decoding_split_semantics [',', 'a']).2.1) 0 (by decide)).1

/-- Entity-loop fold when no entity is an Aspect: the group list stays
empty and every opinion slice is buffered in order. -/
theorem foldl_processEnt_all_opinion (sub_text : List Char) :
    ∀ (ents : List Ent) (sub_no : List (List Char)),
      (∀ e ∈ ents, e.1 ≠ "Aspect") →
      ents.foldl (processEnt sub_text) ([], sub_no)
        = ([], sub_no ++ ents.map (fun e => pySlice sub_text e.2.1 (e.2.2 + 1))) := by
  intro ents
  induction ents with
  | nil =>
    intro sub_no _
    simp
  | cons e rest ih =>
    intro sub_no hall
    have he : e.1 ≠ "Aspect" := hall e (by simp)
    have hstep : processEnt sub_text ([], sub_no) e
        = ([], sub_no ++ [pySlice sub_text e.2.1 (e.2.2 + 1)]) := by
      simp [processEnt, he]
    rw [List.foldl_cons, hstep, ih _ (fun x hx => hall x (by simp [hx]))]
    simp

/-- Segment fold when no entity anywhere is an Aspect: the global group
list stays empty and all opinion slices accumulate in the orphan buffer
in order of appearance. -/
theorem foldl_processSeg_all_opinion :
    ∀ (segs : List (List Char × List Ent)) (no_a : List (List Char)),
      (∀ seg ∈ segs, ∀ e ∈ seg.2, e.1 ≠ "Aspect") →
      segs.foldl processSeg ([], no_a) = ([], no_a ++ opinionSurfaces segs) := by
  intro segs
  induction segs with
  | nil =>
    intro no_a _
    simp [opinionSurfaces]
  | cons seg rest ih =>
    intro no_a hall
    have hseg := foldl_processEnt_all_opinion seg.1 seg.2 []
      (fun e he => hall seg (by simp) e he)
    have hstep : processSeg ([], no_a) seg
        = ([], no_a ++ seg.2.map (fun e => pySlice seg.1 e.2.1 (e.2.2 + 1))) := by
      simp only [processSeg, List.nil_append] at hseg ⊢
      rw [hseg]
      by_cases hs : seg.2.map (fun e => pySlice seg.1 e.2.1 (e.2.2 + 1)) = []
      · simp [hs]
      · simp [hs, List.isEmpty_iff]
    rw [List.foldl_cons, hstep, ih _ (fun s hs e he => hall s (by simp [hs]) e he)]
    simp [opinionSurfaces, List.append_assoc]

/-- Claim C5: when every extracted entity is an Opinion and at least one
exists, the decode returns exactly one group: the sentinel `"None"`
followed by all opinion surface strings in order of appearance. -/
theorem decoding_only_opinions (text : List Char) (tag_seq : List String)
    (hlen : text.length = tag_seq.length)
    (hop : ∀ seg ∈ entsList text tag_seq, ∀ e ∈ seg.2, e.1 = "Opinion")
    (hne : opinionSurfaces (entsList text tag_seq) ≠ []) :
    decoding text tag_seq
      = Except.ok [noneWord :: opinionSurfaces (entsList text tag_seq)] := by
  have hall : ∀ seg ∈ entsList text tag_seq, ∀ e ∈ seg.2, e.1 ≠ "Aspect" := by
    intro seg hs e he
    rw [hop seg hs e he]
    decide
  have hfold := foldl_processSeg_all_opinion (entsList text tag_seq) [] hall
  simp [decoding, hlen, aggregate, hfold, List.isEmpty_iff, hne]

/-- Claim C5 witness: `text = "o"`, `tag_seq = ["B-Opinion"]` yields the
single sentinel-led group `["None", "o"]`. -/
theorem decoding_only_opinions_witness :
    decoding ['o'] ["B-Opinion"] = Except.ok [[noneWord, ['o']]] :=
  decoding_only_opinions ['o'] ["B-Opinion"] rfl (by decide) (by decide)

/-- A member of an emitted slice is a member of the sliced list. -/
theorem mem_of_mem_subSlices {xs : List α} :
    ∀ (splits : List Nat) (prev : Nat) (s : List α),
      s ∈ subSlices xs splits prev → ∀ x ∈ s, x ∈ xs := by
  intro splits
  induction splits with
  | nil =>
    intro prev s hs x hx
    simp only [subSlices, List.mem_singleton] at hs
    subst hs
    exact List.mem_of_mem_drop hx
  | cons a rest ih =>
    intro prev s hs x hx
    simp only [subSlices, List.mem_cons] at hs
    rcases hs with hs | hs
    · subst hs
      exact List.mem_of_mem_take (List.mem_of_mem_drop hx)
    · exact ih a s hs x hx

/-- The extractor scan yields nothing on all-outside tags. -/
theorem chunksAux_all_outside :
    ∀ (tags : List String) (i : Nat), (∀ t ∈ tags, t = "O") →
      chunksAux tags i none = [] := by
  intro tags
  induction tags with
  | nil =>
    intro i _
    rfl
  | cons t rest ih =>
    intro i hall
    have ht : t = "O" := hall t (by simp)
    subst ht
    have hO : tagLabel "O" = none := rfl
    simp only [chunksAux, hO]
    exact ih (i + 1) (fun x hx => hall x (by simp [hx]))

/-- A segment with no entities leaves the aggregation state unchanged. -/
theorem processSeg_no_ents (st : List AspectGroup × List (List Char))
    (seg : List Char × List Ent) (h : seg.2 = []) :
    processSeg st seg = st := by
  simp [processSeg, h]

/-- Folding over segments that all lack entities changes nothing. -/
theorem foldl_processSeg_no_ents :
    ∀ (segs : List (List Char × List Ent))
      (st : List AspectGroup × List (List Char)),
      (∀ seg ∈ segs, seg.2 = []) → segs.foldl processSeg st = st := by
  intro segs
  induction segs with
  | nil =>
    intro st _
    rfl
  | cons seg rest ih =>
    intro st hall
    rw [List.foldl_cons, processSeg_no_ents st seg (hall seg (by simp))]
    exact ih st (fun s hs => hall s (by simp [hs]))

/-- Claim C6: a tag sequence of all `"O"` labels decodes to the empty
group list, and any input satisfying the length precondition decodes to
a well-defined (possibly empty) output rather than an error. -/
theorem decoding_all_outside (text : List Char) (tag_seq : List String)
    (hlen : text.length = tag_seq.length) :
    ((∀ t ∈ tag_seq, t = "O") → decoding text tag_seq = Except.ok []) ∧
    ∃ r, decoding text tag_seq = Except.ok r := by
  constructor
  · intro hout
    have hsegs : ∀ seg ∈ entsList text tag_seq, seg.2 = [] := by
      intro seg hs
      simp only [entsList, List.mem_map] at hs
      obtain ⟨p, hp, rfl⟩ := hs
      have hp2 : p.2 ∈ subSlices tag_seq (splitsOf text) 0 :=
        (List.of_mem_zip hp).2
      have hallO : ∀ t ∈ p.2, t = "O" := fun t ht =>
        hout t (mem_of_mem_subSlices (splitsOf text) 0 p.2 hp2 t ht)
      exact chunksAux_all_outside p.2 0 hallO
    have hfold := foldl_processSeg_no_ents (entsList text tag_seq)
      ([], []) hsegs
    simp [decoding, hlen, aggregate, hfold]
  · exact ⟨aggregate (entsList text tag_seq), by simp [decoding, hlen]⟩

/-- Claim C6 witness: `text = "a"` with the all-outside tag sequence
`["O"]` decodes to the empty group list. -/
theorem decoding_all_outside_witness :
    decoding ['a'] ["O"] = Except.ok [] :=
  (decoding_all_outside ['a'] ["O"] rfl).1 (by decide)
